import Mathlib

/-!
Verification of the namespaced memory store and the notebook glue code of
`docs/docs/how-tos/memory/shared-state.ipynb`.

The notebook wires an external in-memory store (`InMemoryStore` from the
library, not part of the sources here) into a small graph with a routing
function `route` and a memory-writing node `update_memory`.  The store
itself is modelled from the specification (a namespaced key/value store
with prefix-scoped search); `route` and `update_memory` are embedded
directly from the notebook code.
-/

set_option autoImplicit false

namespace SharedState

/-- A namespace is an ordered sequence of string segments. -/
abbrev Nspace := List String

/-- A key is a string, unique within a namespace. -/
abbrev Key := String

/-- Modelled from the spec: an item is a record
`(namespace, key, value, created_at, updated_at)`; `(namespace, key)`
uniquely identifies an item.  The namespace field is called `ns` because
`namespace` is a Lean keyword. -/
structure Item (α : Type) where
  ns : Nspace
  key : Key
  value : α
  created_at : Nat
  updated_at : Nat
deriving Repr, DecidableEq

/-- Modelled from the spec: the store owns the collection of all items
(kept in insertion order so `search` is deterministic) together with a
logical clock used for the `created_at` / `updated_at` timestamps. -/
structure Store (α : Type) where
  items : List (Item α)
  clock : Nat
deriving Repr, DecidableEq

/-- Modelled from the spec: the only error condition is malformed input —
an empty namespace sequence or an empty key string. -/
inductive StoreError where
  | emptyNamespace
  | emptyKey
deriving Repr, DecidableEq

/-- Does the item carry the identity `(n, k)`? -/
def Item.matchesId {α : Type} (it : Item α) (n : Nspace) (k : Key) : Bool :=
  it.ns == n && it.key == k

/-- Modelled from the spec: `n` equals `p` or has `p` as a leading
sequence of segments (segment-wise equality on the shared leading part). -/
def nsStartsWith (p n : Nspace) : Bool :=
  match p, n with
  | [], _ => true
  | _ :: _, [] => false
  | a :: p1, b :: n1 => a == b && nsStartsWith p1 n1

/-- The empty store. -/
def Store.empty {α : Type} : Store α := ⟨[], 0⟩

/-- Modelled from the spec: `put(namespace, key, value)` inserts or
overwrites the item at `(namespace, key)`.  Writing an existing identity
updates `value` and `updated_at` in place rather than creating a
duplicate; malformed input (empty namespace or empty key) fails fast with
a validation error. -/
def Store.put {α : Type} (s : Store α) (n : Nspace) (k : Key) (v : α) :
    Except StoreError (Store α) :=
  if n = [] then .error .emptyNamespace
  else if k = "" then .error .emptyKey
  else if s.items.any (fun it => it.matchesId n k) then
    .ok ⟨s.items.map (fun it =>
          if it.matchesId n k then
            { it with value := v, updated_at := s.clock }
          else it),
        s.clock + 1⟩
  else
    .ok ⟨s.items ++ [⟨n, k, v, s.clock, s.clock⟩], s.clock + 1⟩

/-- Modelled from the spec: `get(namespace, key)` returns the current
value for the exact `(namespace, key)` pair, or `none` if absent — never
an error for a legitimately missing key. -/
def Store.get {α : Type} (s : Store α) (n : Nspace) (k : Key) :
    Except StoreError (Option α) :=
  if n = [] then .error .emptyNamespace
  else if k = "" then .error .emptyKey
  else .ok ((s.items.find? (fun it => it.matchesId n k)).map Item.value)

/-- Modelled from the spec: `search(namespace_prefix)` returns all items
whose namespace equals the given path or has it as a leading sequence of
segments, in insertion order; it returns an empty sequence (not an error)
when no items match. -/
def Store.search {α : Type} (s : Store α) (p : Nspace) :
    Except StoreError (List (Item α)) :=
  if p = [] then .error .emptyNamespace
  else .ok (s.items.filter (fun it => nsStartsWith p it.ns))

/-- Modelled from the spec: `delete(namespace, key)` removes the item if
present; no-op if absent. -/
def Store.delete {α : Type} (s : Store α) (n : Nspace) (k : Key) :
    Except StoreError (Store α) :=
  if n = [] then .error .emptyNamespace
  else if k = "" then .error .emptyKey
  else .ok ⟨s.items.filter (fun it => !(it.matchesId n k)), s.clock⟩

/-- The store invariant: no two items share the same `(namespace, key)`
identity. -/
def WellFormed {α : Type} (s : Store α) : Prop :=
  s.items.Pairwise (fun a b => ¬(a.ns = b.ns ∧ a.key = b.key))

/-- A mutating store operation (reads do not change the store). -/
inductive Op (α : Type) where
  | put (n : Nspace) (k : Key) (v : α)
  | delete (n : Nspace) (k : Key)

/-- Apply one operation; a failed (validation-error) operation leaves the
store unchanged. -/
def applyOp {α : Type} (s : Store α) : Op α → Store α
  | .put n k v => ((s.put n k v).toOption).getD s
  | .delete n k => ((s.delete n k).toOption).getD s

/-- Run a sequence of operations from the empty store. -/
def runOps {α : Type} (ops : List (Op α)) : Store α :=
  ops.foldl applyOp Store.empty

/-- A store state is reachable when some sequence of operations produces
it from the empty store. -/
def Reachable {α : Type} (s : Store α) : Prop :=
  ∃ ops : List (Op α), runOps ops = s

/-! ### Notebook code

The declarations below are embedded from the notebook's own code cells. -/

/-- The `Info` tool schema of the notebook: a fact about the user and its
topic. -/
structure Info where
  fact : String
  topic : String
deriving Repr, DecidableEq

/-- A tool call carried by a model message: its id and its `Info`
arguments (`tc["id"]`, `tc["args"]["fact"]`, `tc["args"]["topic"]`). -/
structure ToolCall where
  id : String
  args : Info
deriving Repr, DecidableEq

/-- A tool message appended by `update_memory`:
`{"role": "tool", "content": "Saved!", "tool_call_id": tc["id"]}`. -/
structure ToolMessage where
  role : String
  content : String
  tool_call_id : String
deriving Repr, DecidableEq

/-- A chat message as far as the routing logic observes it: its list of
tool calls. -/
structure Message where
  tool_calls : List ToolCall
deriving Repr, DecidableEq

/-- The graph state: the list of messages. -/
structure MessagesState where
  messages : List Message
deriving Repr, DecidableEq

/-- Where the conditional edge after `call_model` can go. -/
inductive RouteTarget where
  | END
  | update_memory
deriving Repr, DecidableEq

/-- The notebook's routing function:
`if len(state["messages"][-1].tool_calls) == 0: return END else: return
"update_memory"`.  Python's `[-1]` raises on an empty list, which the
embedding renders as `none`. -/
def route (state : MessagesState) : Option RouteTarget :=
  state.messages.getLast?.map (fun m =>
    if m.tool_calls.length = 0 then .END else .update_memory)

/-- The notebook's `update_memory` node, embedded over the last message's
tool calls.  `memory_id` is the string of the single `uuid.uuid4()`
generated once before the loop; for each tool call the node appends a
`ToolMessage` and calls
`store.put(("memories", user_id), memory_id, {"fact": ..., "topic": ...})`
with the same namespace and the same key every iteration. -/
def update_memory (user_id memory_id : String) (tool_calls : List ToolCall)
    (store : Store Info) : Except StoreError (List ToolMessage × Store Info) :=
  match tool_calls with
  | [] => .ok ([], store)
  | tc :: rest => do
      let store1 ← store.put ["memories", user_id] memory_id
        ⟨tc.args.fact, tc.args.topic⟩
      let (msgs, store2) ← update_memory user_id memory_id rest store1
      .ok (⟨"tool", "Saved!", tc.id⟩ :: msgs, store2)

/-! ### Helper lemmas about the store operations -/

theorem Item.matchesId_iff {α : Type} (it : Item α) (n : Nspace) (k : Key) :
    it.matchesId n k = true ↔ (it.ns = n ∧ it.key = k) := by
  simp [Item.matchesId]

theorem Item.matchesId_update {α : Type} (it : Item α) (n : Nspace) (k : Key)
    (v : α) (t : Nat) :
    ({ it with value := v, updated_at := t } : Item α).matchesId n k
      = it.matchesId n k := rfl

theorem put_ok {α : Type} (s : Store α) (n : Nspace) (k : Key) (v : α)
    (hn : n ≠ []) (hk : k ≠ "") : ∃ s1, s.put n k v = .ok s1 := by
  rw [Store.put, if_neg hn, if_neg hk]
  split <;> exact ⟨_, rfl⟩

theorem find?_map_replace {α : Type} (n : Nspace) (k : Key) (v : α) (t : Nat)
    (l : List (Item α)) (hl : l.any (fun it => it.matchesId n k) = true) :
    ((l.map (fun it =>
        if it.matchesId n k then { it with value := v, updated_at := t }
        else it)).find? (fun it => it.matchesId n k)).map Item.value
      = some v := by
  induction l with
  | nil => simp at hl
  | cons a l ih =>
    by_cases h : a.matchesId n k = true
    · simp only [List.map_cons, if_pos h]
      rw [List.find?_cons_of_pos _ (by rw [Item.matchesId_update]; exact h)]
      simp
    · simp only [List.map_cons, if_neg h]
      rw [List.find?_cons_of_neg _ (by simp [h])]
      exact ih (by simpa [h] using hl)

theorem get_put {α : Type} {s s1 : Store α} {n : Nspace} {k : Key} {v : α}
    (hput : s.put n k v = .ok s1) : s1.get n k = .ok (some v) := by
  rw [Store.put] at hput
  split_ifs at hput with h1 h2 h3
  · cases hput
    rw [Store.get, if_neg h1, if_neg h2]
    simp only []
    rw [find?_map_replace n k v s.clock s.items h3]
  · cases hput
    rw [Store.get, if_neg h1, if_neg h2]
    simp only [List.find?_append]
    have hnone : s.items.find? (fun it => it.matchesId n k) = none := by
      rw [List.find?_eq_none]
      intro it hit hm
      exact absurd (List.any_eq_true.mpr ⟨it, hit, hm⟩) (by simpa using h3)
    rw [hnone]
    simp [Item.matchesId]

/-- `(n, k)` carries an item in the store. -/
def presentIn {α : Type} (s : Store α) (n : Nspace) (k : Key) : Prop :=
  ∃ it ∈ s.items, it.matchesId n k = true

theorem put_length {α : Type} {s s1 : Store α} {n : Nspace} {k : Key} {v : α}
    (hput : s.put n k v = .ok s1) :
    s1.items.length ≤ s.items.length + 1 := by
  rw [Store.put] at hput
  split_ifs at hput <;> cases hput <;> simp

theorem put_present {α : Type} {s s1 : Store α} {n : Nspace} {k : Key} {v : α}
    (hput : s.put n k v = .ok s1) : presentIn s1 n k := by
  rw [Store.put] at hput
  split_ifs at hput with h1 h2 h3
  · cases hput
    obtain ⟨it, hit, hm⟩ := List.any_eq_true.mp h3
    refine ⟨{ it with value := v, updated_at := s.clock }, ?_, ?_⟩
    · exact List.mem_map.mpr ⟨it, hit, by rw [if_pos hm]⟩
    · rw [Item.matchesId_update]; exact hm
  · cases hput
    exact ⟨⟨n, k, v, s.clock, s.clock⟩, by simp, by simp [Item.matchesId]⟩

theorem put_length_of_present {α : Type} {s s1 : Store α} {n : Nspace}
    {k : Key} {v : α} (hpres : presentIn s n k)
    (hput : s.put n k v = .ok s1) :
    s1.items.length = s.items.length := by
  rw [Store.put] at hput
  split_ifs at hput with h1 h2 h3
  · cases hput; simp
  · obtain ⟨it, hit, hm⟩ := hpres
    exact absurd (List.any_eq_true.mpr ⟨it, hit, hm⟩) (by simpa using h3)

theorem put_preserves_present {α : Type} {s s1 : Store α} {n0 : Nspace}
    {k0 : Key} {n : Nspace} {k : Key} {v : α} (hpres : presentIn s n0 k0)
    (hput : s.put n k v = .ok s1) : presentIn s1 n0 k0 := by
  obtain ⟨it, hit, hm⟩ := hpres
  rw [Store.put] at hput
  split_ifs at hput with h1 h2 h3
  · cases hput
    by_cases hrep : it.matchesId n k = true
    · exact ⟨{ it with value := v, updated_at := s.clock },
        List.mem_map.mpr ⟨it, hit, by rw [if_pos hrep]⟩,
        by rw [Item.matchesId_update]; exact hm⟩
    · exact ⟨it, List.mem_map.mpr ⟨it, hit, by rw [if_neg hrep]⟩, hm⟩
  · cases hput
    exact ⟨it, by simp [hit], hm⟩

theorem put_wf {α : Type} {s s1 : Store α} {n : Nspace} {k : Key} {v : α}
    (hwf : WellFormed s) (hput : s.put n k v = .ok s1) : WellFormed s1 := by
  rw [Store.put] at hput
  split_ifs at hput with h1 h2 h3
  · cases hput
    refine List.Pairwise.map _ ?_ hwf
    intro a b hab hid
    apply hab
    constructor
    · have ha : (if a.matchesId n k then
          ({ a with value := v, updated_at := s.clock } : Item α) else a).ns
            = a.ns := by split <;> rfl
      have hb : (if b.matchesId n k then
          ({ b with value := v, updated_at := s.clock } : Item α) else b).ns
            = b.ns := by split <;> rfl
      rw [← ha, ← hb]; exact hid.1
    · have ha : (if a.matchesId n k then
          ({ a with value := v, updated_at := s.clock } : Item α) else a).key
            = a.key := by split <;> rfl
      have hb : (if b.matchesId n k then
          ({ b with value := v, updated_at := s.clock } : Item α) else b).key
            = b.key := by split <;> rfl
      rw [← ha, ← hb]; exact hid.2
  · cases hput
    rw [WellFormed, List.pairwise_append]
    refine ⟨hwf, by simp, ?_⟩
    intro a ha b hb hid
    have : a.matchesId n k = true := by
      rw [Item.matchesId_iff]
      simp only [List.mem_singleton] at hb
      subst hb
      exact hid
    exact absurd (List.any_eq_true.mpr ⟨a, ha, this⟩) (by simpa using h3)

theorem countP_le_one_of_pairwise {α : Type} (n : Nspace) (k : Key) :
    ∀ l : List (Item α),
      l.Pairwise (fun a b => ¬(a.ns = b.ns ∧ a.key = b.key)) →
      l.countP (fun it => it.matchesId n k) ≤ 1 := by
  intro l hl
  induction l with
  | nil => simp
  | cons a l ih =>
    rcases List.pairwise_cons.mp hl with ⟨ha, hl1⟩
    by_cases hm : a.matchesId n k = true
    · have h0 : l.countP (fun it => it.matchesId n k) = 0 := by
        rw [List.countP_eq_zero]
        intro b hb hbm
        rcases (Item.matchesId_iff a n k).mp hm with ⟨h1, h2⟩
        rcases (Item.matchesId_iff b n k).mp hbm with ⟨h3, h4⟩
        exact ha b hb ⟨h1.trans h3.symm, h2.trans h4.symm⟩
      simp [List.countP_cons, hm, h0]
    · simp only [List.countP_cons, hm]
      simpa using ih hl1

theorem wf_countP_le_one {α : Type} {s : Store α} (hwf : WellFormed s)
    (n : Nspace) (k : Key) :
    s.items.countP (fun it => it.matchesId n k) ≤ 1 :=
  countP_le_one_of_pairwise n k s.items hwf

theorem put_count {α : Type} {s s1 : Store α} {n : Nspace} {k : Key} {v : α}
    (hwf : WellFormed s) (hput : s.put n k v = .ok s1) :
    s1.items.countP (fun it => it.matchesId n k) = 1 ∧
      ∀ it ∈ s1.items, it.matchesId n k = true → it.value = v := by
  rw [Store.put] at hput
  split_ifs at hput with h1 h2 h3
  · cases hput
    constructor
    · rw [List.countP_map]
      have hcong : s.items.countP
          ((fun it => it.matchesId n k) ∘ (fun it =>
            if it.matchesId n k then
              ({ it with value := v, updated_at := s.clock } : Item α)
            else it)) = s.items.countP (fun it => it.matchesId n k) := by
        apply List.countP_congr
        intro a _
        by_cases hm : a.matchesId n k = true
        · simp only [Function.comp, if_pos hm, Item.matchesId_update]
        · simp only [Function.comp, if_neg hm]
      rw [hcong]
      have hle := wf_countP_le_one hwf n k
      have hpos : 0 < s.items.countP (fun it => it.matchesId n k) :=
        List.countP_pos_iff.mpr (List.any_eq_true.mp h3)
      omega
    · intro it hit hm
      obtain ⟨a, _, rfl⟩ := List.mem_map.mp hit
      by_cases ham : a.matchesId n k = true
      · rw [if_pos ham]
      · rw [if_neg ham] at hm ⊢
        exact absurd hm ham
  · cases hput
    constructor
    · rw [List.countP_append]
      have h0 : s.items.countP (fun it => it.matchesId n k) = 0 := by
        rw [List.countP_eq_zero]
        intro a ha ham
        exact absurd (List.any_eq_true.mpr ⟨a, ha, ham⟩) (by simpa using h3)
      rw [h0]
      simp [Item.matchesId]
    · intro it hit hm
      rcases List.mem_append.mp hit with hin | hin
      · exact absurd (List.any_eq_true.mpr ⟨it, hin, hm⟩) (by simpa using h3)
      · simp only [List.mem_singleton] at hin
        subst hin
        rfl

theorem delete_ok {α : Type} (s : Store α) (n : Nspace) (k : Key)
    (hn : n ≠ []) (hk : k ≠ "") : ∃ s1, s.delete n k = .ok s1 := by
  rw [Store.delete, if_neg hn, if_neg hk]
  exact ⟨_, rfl⟩

theorem get_delete {α : Type} {s s1 : Store α} {n : Nspace} {k : Key}
    (hn : n ≠ []) (hk : k ≠ "") (hdel : s.delete n k = .ok s1) :
    s1.get n k = .ok none := by
  rw [Store.delete, if_neg hn, if_neg hk] at hdel
  cases hdel
  rw [Store.get, if_neg hn, if_neg hk]
  have : (s.items.filter (fun it => !(it.matchesId n k))).find?
      (fun it => it.matchesId n k) = none := by
    rw [List.find?_eq_none]
    intro a ha ham
    have := List.of_mem_filter ha
    simp [ham] at this
  rw [this]
  rfl

theorem delete_absent {α : Type} {s : Store α} {n : Nspace} {k : Key}
    (hn : n ≠ []) (hk : k ≠ "") (habs : ¬presentIn s n k) :
    s.delete n k = .ok s := by
  rw [Store.delete, if_neg hn, if_neg hk]
  have : s.items.filter (fun it => !(it.matchesId n k)) = s.items := by
    rw [List.filter_eq_self]
    intro a ha
    by_contra hc
    exact habs ⟨a, ha, by simpa using hc⟩
  cases s with
  | mk items clock => simp only at this ⊢; rw [this]

theorem delete_mem {α : Type} {s s1 : Store α} {n : Nspace} {k : Key}
    (hdel : s.delete n k = .ok s1) :
    ∀ it ∈ s1.items, it.matchesId n k = false := by
  rw [Store.delete] at hdel
  split_ifs at hdel
  cases hdel
  intro it hit
  have := List.of_mem_filter hit
  simpa using this

theorem delete_wf {α : Type} {s s1 : Store α} {n : Nspace} {k : Key}
    (hwf : WellFormed s) (hdel : s.delete n k = .ok s1) : WellFormed s1 := by
  rw [Store.delete] at hdel
  split_ifs at hdel
  cases hdel
  exact List.Pairwise.sublist (List.filter_sublist _) hwf

theorem get_absent {α : Type} {s : Store α} {n : Nspace} {k : Key}
    (hn : n ≠ []) (hk : k ≠ "") (habs : ¬presentIn s n k) :
    s.get n k = .ok none := by
  rw [Store.get, if_neg hn, if_neg hk]
  have : s.items.find? (fun it => it.matchesId n k) = none := by
    rw [List.find?_eq_none]
    intro a ha ham
    exact habs ⟨a, ha, ham⟩
  rw [this]
  rfl

theorem nsStartsWith_iff : ∀ p n : Nspace, nsStartsWith p n = true ↔ p <+: n := by
  intro p
  induction p with
  | nil =>
    intro n
    constructor
    · intro _
      exact ⟨n, rfl⟩
    · intro _
      rfl
  | cons a p ih =>
    intro n
    cases n with
    | nil =>
      constructor
      · intro h
        simp [nsStartsWith] at h
      · rintro ⟨t, ht⟩
        simp at ht
    | cons b n1 =>
      simp only [nsStartsWith, Bool.and_eq_true]
      constructor
      · rintro ⟨h1, h2⟩
        obtain rfl : a = b := by simpa using h1
        obtain ⟨t, rfl⟩ := (ih n1).mp h2
        exact ⟨t, rfl⟩
      · rintro ⟨t, ht⟩
        injection ht with hab htail
        subst hab
        exact ⟨by simp, (ih n1).mpr ⟨t, htail⟩⟩

theorem search_mem {α : Type} {s : Store α} {p : Nspace} (hp : p ≠ []) :
    ∃ res, s.search p = .ok res ∧
      ∀ it, it ∈ res ↔ (it ∈ s.items ∧ p <+: it.ns) := by
  rw [Store.search, if_neg hp]
  refine ⟨_, rfl, ?_⟩
  intro it
  constructor
  · intro h
    rcases List.mem_filter.mp h with ⟨h1, h2⟩
    exact ⟨h1, (nsStartsWith_iff p it.ns).mp h2⟩
  · rintro ⟨h1, h2⟩
    exact List.mem_filter.mpr ⟨h1, (nsStartsWith_iff p it.ns).mpr h2⟩

theorem search_no_match {α : Type} {s : Store α} {p : Nspace} (hp : p ≠ [])
    (h : ∀ it ∈ s.items, ¬(p <+: it.ns)) : s.search p = .ok [] := by
  rw [Store.search, if_neg hp]
  have : s.items.filter (fun it => nsStartsWith p it.ns) = [] := by
    rw [List.filter_eq_nil_iff]
    intro a ha hpref
    exact h a ha ((nsStartsWith_iff p a.ns).mp hpref)
  rw [this]

theorem applyOp_wf {α : Type} {s : Store α} (hwf : WellFormed s) (op : Op α) :
    WellFormed (applyOp s op) := by
  cases op with
  | put n k v =>
    rw [applyOp]
    cases hput : s.put n k v with
    | ok s1 => simpa [Except.toOption] using put_wf hwf hput
    | error e => simpa [Except.toOption] using hwf
  | delete n k =>
    rw [applyOp]
    cases hdel : s.delete n k with
    | ok s1 => simpa [Except.toOption] using delete_wf hwf hdel
    | error e => simpa [Except.toOption] using hwf

theorem foldl_applyOp_wf {α : Type} :
    ∀ (ops : List (Op α)) (s : Store α), WellFormed s →
      WellFormed (ops.foldl applyOp s)
  | [], _, h => h
  | op :: ops, s, h => foldl_applyOp_wf ops (applyOp s op) (applyOp_wf h op)

theorem wf_empty {α : Type} : WellFormed (Store.empty : Store α) :=
  List.Pairwise.nil

theorem reachable_wf {α : Type} {s : Store α} (h : Reachable s) :
    WellFormed s := by
  obtain ⟨ops, rfl⟩ := h
  exact foldl_applyOp_wf ops Store.empty wf_empty

/-! ### Lemmas about the notebook's `update_memory` node -/

theorem ok_bind {ε α β : Type} (a : α) (f : α → Except ε β) :
    (Except.ok a >>= f : Except ε β) = f a := rfl

theorem error_bind {ε α β : Type} (e : ε) (f : α → Except ε β) :
    (Except.error e >>= f : Except ε β) = .error e := rfl

theorem update_memory_present (uid mid : String) (hmid : mid ≠ "") :
    ∀ (tcs : List ToolCall) (s : Store Info) (msgs : List ToolMessage)
      (s1 : Store Info),
      presentIn s ["memories", uid] mid →
      update_memory uid mid tcs s = .ok (msgs, s1) →
      s1.items.length = s.items.length ∧ presentIn s1 ["memories", uid] mid := by
  intro tcs
  induction tcs with
  | nil =>
    intro s msgs s1 hpres hrun
    simp only [update_memory, Except.ok.injEq, Prod.mk.injEq] at hrun
    obtain ⟨h1, h2⟩ := hrun
    subst h2
    exact ⟨rfl, hpres⟩
  | cons tc rest ih =>
    intro s msgs s1 hpres hrun
    simp only [update_memory] at hrun
    obtain ⟨sa, hput⟩ :=
      put_ok s ["memories", uid] mid ⟨tc.args.fact, tc.args.topic⟩
        (by simp) hmid
    rw [hput, ok_bind] at hrun
    cases hrec : update_memory uid mid rest sa with
    | error e =>
      rw [hrec, error_bind] at hrun
      cases hrun
    | ok pair =>
      obtain ⟨msgs2, s2⟩ := pair
      rw [hrec, ok_bind] at hrun
      simp only [Except.ok.injEq, Prod.mk.injEq] at hrun
      obtain ⟨h1, h2⟩ := hrun
      subst h2
      have hlen := put_length_of_present hpres hput
      have hrest := ih sa msgs2 s2 (put_present hput) hrec
      exact ⟨hrest.1.trans hlen, hrest.2⟩

theorem update_memory_spec (uid mid : String) (hmid : mid ≠ "") :
    ∀ (tcs : List ToolCall) (s : Store Info),
      ∃ msgs s1, update_memory uid mid tcs s = .ok (msgs, s1) ∧
        msgs = tcs.map (fun tc => (⟨"tool", "Saved!", tc.id⟩ : ToolMessage)) ∧
        s1.items.length ≤ s.items.length + 1 ∧
        (tcs = [] → s1 = s) ∧
        ∀ tc, tcs.getLast? = some tc →
          s1.get ["memories", uid] mid
            = .ok (some ⟨tc.args.fact, tc.args.topic⟩) := by
  intro tcs
  induction tcs with
  | nil =>
    intro s
    refine ⟨[], s, ?_, rfl, by simp, fun _ => rfl, ?_⟩
    · simp [update_memory]
    · intro tc htc
      simp at htc
  | cons tc rest ih =>
    intro s
    obtain ⟨sa, hput⟩ :=
      put_ok s ["memories", uid] mid ⟨tc.args.fact, tc.args.topic⟩
        (by simp) hmid
    obtain ⟨msgs2, s1, hrun, hmsgs, _, hnil, hlast⟩ := ih sa
    refine ⟨⟨"tool", "Saved!", tc.id⟩ :: msgs2, s1, ?_, ?_, ?_, ?_, ?_⟩
    · simp only [update_memory]
      rw [hput, ok_bind, hrun, ok_bind]
    · rw [hmsgs]
      rfl
    · have h1 := put_length hput
      have h2 := (update_memory_present uid mid hmid rest sa msgs2 s1
        (put_present hput) hrun).1
      omega
    · intro h
      cases h
    · intro tcl htcl
      cases rest with
      | nil =>
        simp only [List.getLast?_singleton, Option.some.injEq] at htcl
        subst htcl
        rw [hnil rfl]
        exact get_put hput
      | cons tc2 rest2 =>
        rw [List.getLast?_cons_cons] at htcl
        exact hlast tcl htcl

instance presentInDecidable {α : Type} (s : Store α) (n : Nspace) (k : Key) :
    Decidable (presentIn s n k) :=
  decidable_of_iff (∃ it ∈ s.items, it.matchesId n k = true) Iff.rfl

/-- A concrete sequence of operations used to instantiate the theorems on
a reachable store. -/
def sampleOps : List (Op Info) :=
  [.put ["memories", "1"] "a" ⟨"likes pizza", "Food"⟩,
   .put ["memories", "2"] "b" ⟨"likes sushi", "Food"⟩]

/-- The store reached by running `sampleOps` from the empty store. -/
def sampleStore : Store Info := runOps sampleOps

/-- Two concrete tool calls, as the model emits them in the notebook's
transcript. -/
def sampleToolCalls : List ToolCall :=
  [⟨"tc1", ⟨"likes pizza", "Food"⟩⟩, ⟨"tc2", ⟨"lives in SF", "Location"⟩⟩]

/-! ### The claims -/

/-- C1: for every valid namespace `n` (non-empty sequence of segments),
valid key `k` (non-empty string) and value `v`, `put(n, k, v)` succeeds
and a subsequent `get(n, k)` returns `v`. -/
theorem put_then_get {α : Type} (s : Store α) (n : Nspace) (k : Key) (v : α)
    (hn : n ≠ []) (hk : k ≠ "") :
    ∃ s1, s.put n k v = .ok s1 ∧ s1.get n k = .ok (some v) := by
  obtain ⟨s1, h⟩ := put_ok s n k v hn hk
  exact ⟨s1, h, get_put h⟩

theorem put_then_get_witness :
    (["memories", "1"] : Nspace) ≠ [] ∧ ("a" : Key) ≠ "" ∧
    ∃ s1, (sampleStore.put ["memories", "1"] "a" ⟨"likes pasta", "Food"⟩
        = .ok s1 ∧
      s1.get ["memories", "1"] "a" = .ok (some ⟨"likes pasta", "Food"⟩)) :=
  ⟨by simp, by simp,
    put_then_get sampleStore ["memories", "1"] "a" ⟨"likes pasta", "Food"⟩
      (by simp) (by simp)⟩

/-- C2: `search(p)` succeeds on a valid prefix `p` and returns exactly the
items whose namespace starts with `p` (segment-wise); in particular no
item stored under `["memories", "1"]` ever appears in
`search(["memories", "2"])`. -/
theorem search_exactly_matching {α : Type} (s : Store α) (p : Nspace)
    (hp : p ≠ []) :
    (∃ res, s.search p = .ok res ∧
      ∀ it, it ∈ res ↔ (it ∈ s.items ∧ p <+: it.ns)) ∧
    (∀ res, s.search ["memories", "2"] = .ok res →
      ∀ it ∈ res, it.ns ≠ ["memories", "1"]) := by
  constructor
  · exact search_mem hp
  · intro res hres it hit hns
    rw [Store.search, if_neg (by simp)] at hres
    cases hres
    have hmem := List.mem_filter.mp hit
    rw [hns] at hmem
    simp [nsStartsWith] at hmem

theorem search_exactly_matching_witness :
    (["memories", "1"] : Nspace) ≠ [] ∧
    ((∃ res, sampleStore.search ["memories", "1"] = .ok res ∧
      ∀ it, it ∈ res ↔ (it ∈ sampleStore.items ∧ ["memories", "1"] <+: it.ns)) ∧
    (∀ res, sampleStore.search ["memories", "2"] = .ok res →
      ∀ it ∈ res, it.ns ≠ ["memories", "1"])) :=
  ⟨by simp, search_exactly_matching sampleStore ["memories", "1"] (by simp)⟩

/-- C3: on a well-formed store, `put(n, k, v1)` followed by `put(n, k, v2)`
leaves exactly one item with identity `(n, k)`, and its value is `v2` —
the second write replaces the first instead of duplicating. -/
theorem put_put_overwrites {α : Type} (s s1 s2 : Store α) (n : Nspace)
    (k : Key) (v1 v2 : α) (hwf : WellFormed s)
    (h1 : s.put n k v1 = .ok s1) (h2 : s1.put n k v2 = .ok s2) :
    s2.items.countP (fun it => it.matchesId n k) = 1 ∧
      ∀ it ∈ s2.items, it.matchesId n k = true → it.value = v2 :=
  put_count (put_wf hwf h1) h2

theorem put_put_overwrites_witness :
    WellFormed (Store.empty : Store Info) ∧
    ((Store.empty : Store Info).put ["memories", "1"] "a" ⟨"f1", "t"⟩
      = .ok ⟨[⟨["memories", "1"], "a", ⟨"f1", "t"⟩, 0, 0⟩], 1⟩) ∧
    ((⟨[⟨["memories", "1"], "a", ⟨"f1", "t"⟩, 0, 0⟩], 1⟩ : Store Info).put
        ["memories", "1"] "a" ⟨"f2", "t"⟩
      = .ok ⟨[⟨["memories", "1"], "a", ⟨"f2", "t"⟩, 0, 1⟩], 2⟩) ∧
    ((⟨[⟨["memories", "1"], "a", ⟨"f2", "t"⟩, 0, 1⟩], 2⟩ :
        Store Info).items.countP
          (fun it => it.matchesId ["memories", "1"] "a") = 1 ∧
      ∀ it ∈ (⟨[⟨["memories", "1"], "a", ⟨"f2", "t"⟩, 0, 1⟩], 2⟩ :
        Store Info).items,
        it.matchesId ["memories", "1"] "a" = true →
          it.value = (⟨"f2", "t"⟩ : Info)) :=
  by
  have h1 : (Store.empty : Store Info).put ["memories", "1"] "a" ⟨"f1", "t"⟩
      = .ok ⟨[⟨["memories", "1"], "a", ⟨"f1", "t"⟩, 0, 0⟩], 1⟩ := rfl
  have h2 : (⟨[⟨["memories", "1"], "a", ⟨"f1", "t"⟩, 0, 0⟩], 1⟩ :
        Store Info).put ["memories", "1"] "a" ⟨"f2", "t"⟩
      = .ok ⟨[⟨["memories", "1"], "a", ⟨"f2", "t"⟩, 0, 1⟩], 2⟩ := rfl
  have hwf : WellFormed (Store.empty : Store Info) := List.Pairwise.nil
  exact ⟨hwf, h1, h2, put_put_overwrites Store.empty _ _ _ _ _ _ hwf h1 h2⟩

/-- C4: `update_memory` generates the key `memory_id` once and uses the
same namespace `("memories", user_id)` and the same key for every
`store.put` in its loop, so later puts overwrite earlier ones — the final
stored value at that key is the last tool call's fact and topic — and a
single invocation adds at most one new item to the store. -/
theorem update_memory_at_most_one_item (uid mid : String) (hmid : mid ≠ "")
    (tcs : List ToolCall) (s : Store Info) :
    ∃ msgs s1, update_memory uid mid tcs s = .ok (msgs, s1) ∧
      msgs = tcs.map (fun tc => (⟨"tool", "Saved!", tc.id⟩ : ToolMessage)) ∧
      s1.items.length ≤ s.items.length + 1 ∧
      (tcs = [] → s1 = s) ∧
      ∀ tc, tcs.getLast? = some tc →
        s1.get ["memories", uid] mid
          = .ok (some ⟨tc.args.fact, tc.args.topic⟩) :=
  update_memory_spec uid mid hmid tcs s

theorem update_memory_at_most_one_item_witness :
    ("mid-0" : String) ≠ "" ∧
    ∃ msgs s1,
      update_memory "1" "mid-0" sampleToolCalls (Store.empty : Store Info)
          = .ok (msgs, s1) ∧
      msgs = sampleToolCalls.map
          (fun tc => (⟨"tool", "Saved!", tc.id⟩ : ToolMessage)) ∧
      s1.items.length ≤ (Store.empty : Store Info).items.length + 1 ∧
      (sampleToolCalls = [] → s1 = Store.empty) ∧
      ∀ tc, sampleToolCalls.getLast? = some tc →
        s1.get ["memories", "1"] "mid-0"
          = .ok (some ⟨tc.args.fact, tc.args.topic⟩) :=
  ⟨by simp,
    update_memory_at_most_one_item "1" "mid-0" (by simp) sampleToolCalls
      Store.empty⟩

/-- C5: at every reachable store state, at most one item exists for any
`(namespace, key)` identity, and an existing item is never removed by any
operation other than an explicit delete. -/
theorem reachable_state_invariant {α : Type} (s : Store α)
    (h : Reachable s) :
    (∀ n k, s.items.countP (fun it => it.matchesId n k) ≤ 1) ∧
    (∀ n0 k0, presentIn s n0 k0 → ∀ op : Op α,
      (∀ n k, op ≠ Op.delete n k) → presentIn (applyOp s op) n0 k0) := by
  refine ⟨fun n k => wf_countP_le_one (reachable_wf h) n k, ?_⟩
  intro n0 k0 hpres op hop
  cases op with
  | put n k v =>
    rw [applyOp]
    cases hput : s.put n k v with
    | ok s1 => simpa [Except.toOption] using put_preserves_present hpres hput
    | error e => simpa [Except.toOption] using hpres
  | delete n k => exact absurd rfl (hop n k)

theorem reachable_state_invariant_witness :
    Reachable sampleStore ∧
    ((∀ n k, sampleStore.items.countP (fun it => it.matchesId n k) ≤ 1) ∧
    (∀ n0 k0, presentIn sampleStore n0 k0 → ∀ op : Op Info,
      (∀ n k, op ≠ Op.delete n k) →
        presentIn (applyOp sampleStore op) n0 k0)) :=
  ⟨⟨sampleOps, rfl⟩, reachable_state_invariant sampleStore ⟨sampleOps, rfl⟩⟩

/-- C6: each operation fails with a validation error exactly when its
input is malformed — an empty namespace (or, for `search`, an empty
prefix) or an empty key — and succeeds on every well-formed input. -/
theorem ops_error_iff_malformed {α : Type} (s : Store α) (n : Nspace)
    (k : Key) (v : α) (p : Nspace) :
    ((∃ e, s.put n k v = .error e) ↔ (n = [] ∨ k = "")) ∧
    ((∃ e, s.get n k = .error e) ↔ (n = [] ∨ k = "")) ∧
    ((∃ e, s.search p = .error e) ↔ p = []) ∧
    ((∃ e, s.delete n k = .error e) ↔ (n = [] ∨ k = "")) := by
  refine ⟨?_, ?_, ?_, ?_⟩
  · rw [Store.put]
    split_ifs <;> simp [*]
  · rw [Store.get]
    split_ifs <;> simp [*]
  · rw [Store.search]
    split_ifs <;> simp [*]
  · rw [Store.delete]
    split_ifs <;> simp [*]

/-- C7: for a valid `(n, k)` with no stored item, `get(n, k)` returns the
`none` sentinel inside a successful result — it never fails for a
legitimately missing key. -/
theorem get_missing_returns_none {α : Type} (s : Store α) (n : Nspace)
    (k : Key) (hn : n ≠ []) (hk : k ≠ "") (habs : ¬presentIn s n k) :
    s.get n k = .ok none :=
  get_absent hn hk habs

theorem get_missing_returns_none_witness :
    (["memories", "1"] : Nspace) ≠ [] ∧ ("zzz" : Key) ≠ "" ∧
    ¬presentIn sampleStore ["memories", "1"] "zzz" ∧
    sampleStore.get ["memories", "1"] "zzz" = .ok none :=
  ⟨by simp, by simp, by decide,
    get_missing_returns_none sampleStore ["memories", "1"] "zzz"
      (by simp) (by simp) (by decide)⟩

/-- C8: `search(p)` on a valid prefix matched by no stored item's
namespace succeeds with the empty list rather than failing. -/
theorem search_no_items_empty {α : Type} (s : Store α) (p : Nspace)
    (hp : p ≠ []) (h : ∀ it ∈ s.items, ¬(p <+: it.ns)) :
    s.search p = .ok [] :=
  search_no_match hp h

theorem search_no_items_empty_witness :
    (["archive"] : Nspace) ≠ [] ∧
    (∀ it ∈ sampleStore.items, ¬((["archive"] : Nspace) <+: it.ns)) ∧
    sampleStore.search ["archive"] = .ok [] :=
  ⟨by simp, by decide,
    search_no_items_empty sampleStore ["archive"] (by simp) (by decide)⟩

/-- C9: after a successful `delete(n, k)` the item at `(n, k)` is gone —
`get(n, k)` reports `none` and no search result still carries that
identity — and deleting an absent key is an error-free no-op that leaves
the store unchanged. -/
theorem delete_removes_item {α : Type} (s : Store α) (n : Nspace) (k : Key)
    (hn : n ≠ []) (hk : k ≠ "") :
    (∀ s1, s.delete n k = .ok s1 →
      s1.get n k = .ok none ∧
      ∀ p res, p ≠ [] → s1.search p = .ok res →
        ∀ it ∈ res, it.matchesId n k = false) ∧
    (¬presentIn s n k → s.delete n k = .ok s) := by
  constructor
  · intro s1 hdel
    refine ⟨get_delete hn hk hdel, ?_⟩
    intro p res hp hres it hit
    rw [Store.search, if_neg hp] at hres
    cases hres
    exact delete_mem hdel it (List.mem_filter.mp hit).1
  · intro habs
    exact delete_absent hn hk habs

theorem delete_removes_item_witness :
    (["memories", "1"] : Nspace) ≠ [] ∧ ("a" : Key) ≠ "" ∧
    ((∀ s1, sampleStore.delete ["memories", "1"] "a" = .ok s1 →
      s1.get ["memories", "1"] "a" = .ok none ∧
      ∀ p res, p ≠ [] → s1.search p = .ok res →
        ∀ it ∈ res, it.matchesId ["memories", "1"] "a" = false) ∧
    (¬presentIn sampleStore ["memories", "1"] "a" →
      sampleStore.delete ["memories", "1"] "a" = .ok sampleStore)) :=
  ⟨by simp, by simp,
    delete_removes_item sampleStore ["memories", "1"] "a" (by simp) (by simp)⟩

/-- C10: when the message list is non-empty, `route` returns `END` exactly
when the last message carries no tool calls, and `"update_memory"` exactly
when it carries at least one. -/
theorem route_end_iff_no_tool_calls (state : MessagesState)
    (h : state.messages ≠ []) :
    ∃ m, state.messages.getLast? = some m ∧
      (route state = some .END ↔ m.tool_calls = []) ∧
      (route state = some .update_memory ↔ m.tool_calls ≠ []) := by
  cases hm : state.messages.getLast? with
  | none => exact absurd (List.getLast?_eq_none_iff.mp hm) h
  | some m =>
    refine ⟨m, rfl, ?_, ?_⟩ <;>
      by_cases htc : m.tool_calls = [] <;>
        simp [route, hm, htc]

theorem route_end_iff_no_tool_calls_witness :
    (MessagesState.mk [⟨[]⟩, ⟨[⟨"tc1", ⟨"likes pizza", "Food"⟩⟩]⟩]).messages
        ≠ [] ∧
    ∃ m, (MessagesState.mk
        [⟨[]⟩, ⟨[⟨"tc1", ⟨"likes pizza", "Food"⟩⟩]⟩]).messages.getLast?
          = some m ∧
      (route (MessagesState.mk [⟨[]⟩, ⟨[⟨"tc1", ⟨"likes pizza", "Food"⟩⟩]⟩])
          = some .END ↔ m.tool_calls = []) ∧
      (route (MessagesState.mk [⟨[]⟩, ⟨[⟨"tc1", ⟨"likes pizza", "Food"⟩⟩]⟩])
          = some .update_memory ↔ m.tool_calls ≠ []) :=
  ⟨by simp,
    route_end_iff_no_tool_calls
      (MessagesState.mk [⟨[]⟩, ⟨[⟨"tc1", ⟨"likes pizza", "Food"⟩⟩]⟩])
      (by simp)⟩

end SharedState
